import Mathlib

/-!
Verification of the 3DS importer core (Dot3DSImporter, src/code/3DSLoader.h).

The repository ships only the importer's interface (`3DSLoader.h`): the
declarations and doc comments of `ParseChunk`, `ReadChunk`,
`ParsePercentageChunk`, `ParseColorChunk`, `CheckIndices`, `MakeUnique`,
`ConvertMeshes`, `InverseNodeSearch`, `ParseHierarchyChunk`,
`ApplyMasterScale`, `InternReadFile` and `CanRead`, together with the
importer's member fields.  The bodies of these members are not part of the
sources, so every operation below is a shallow embedding modelled from the
specification's description of the pipeline, kept consistent with the
header's own doc comments (in particular the QNAN convention documented on
`ParsePercentageChunk` / `ParseColorChunk`, and the `const` qualifier on
`CanRead`).

Machine floats are modelled by `F32`: either the QNAN sentinel or an exact
rational value.  Byte budgets and chunk lengths are plain `Nat`.
-/

/-- Modelled from the spec: a 3D position (the importer stores `aiVector3D`);
coordinates are exact rationals standing for the float payload. -/
def Vec3 : Type := ℚ × ℚ × ℚ

instance : DecidableEq Vec3 := by
  unfold Vec3
  infer_instance

instance : Inhabited Vec3 := ⟨(0, 0, 0)⟩

/-- Modelled from the spec: a texture coordinate (`aiVector2D`). -/
def Vec2 : Type := ℚ × ℚ

instance : DecidableEq Vec2 := by
  unfold Vec2
  infer_instance

instance : Inhabited Vec2 := ⟨(0, 0)⟩

/-- Modelled from the spec: a machine float as the importer uses it — either
the reserved QNAN sentinel (`get_qnan()` in the original code base) or an
ordinary numeric value. -/
inductive F32 where
  | qnan : F32
  | val : ℚ → F32
deriving DecidableEq

/-- QNAN test on the float model. -/
def F32.isNaN : F32 → Bool
  | .qnan => true
  | .val _ => false

/-- Float multiplication on the model: any operand that is QNAN makes the
result QNAN, mirroring IEEE NaN propagation. -/
def F32.mul : F32 → F32 → F32
  | .qnan, _ => .qnan
  | _, .qnan => .qnan
  | .val a, .val b => .val (a * b)

/-- Modelled from the spec: one face of an intermediate mesh — three vertex
indices plus the material-group and smoothing-group tags the format stores
per face (`Dot3DS::Mesh`, body in the missing `3DSHelper.h`). -/
structure IFace where
  i0 : Nat
  i1 : Nat
  i2 : Nat
  mat : Nat
  smooth : Nat
deriving DecidableEq

/-- Modelled from the spec: an intermediate mesh (`Dot3DS::Mesh`): vertex
positions, an optional parallel texture-coordinate array, and faces. -/
structure IMesh where
  verts : List Vec3
  tex : Option (List Vec2)
  faces : List IFace
deriving DecidableEq

/-- Modelled from the spec: an output mesh (`aiMesh`): after conversion every
output mesh references exactly one material. -/
structure OMesh where
  verts : List Vec3
  tex : Option (List Vec2)
  faces : List IFace
  mat : Nat
deriving DecidableEq

/-- Modelled from the spec: one node of the output graph, stored in an arena
of nodes addressed by stable integer handles; `parent = none` attaches the
node directly under the scene root. -/
structure ANode where
  name : String
  pivot : Vec3
  parent : Option Nat
deriving DecidableEq

/-- Modelled from the spec: the finished output scene graph (`aiScene`):
converted meshes plus the node arena. -/
structure OScene where
  meshes : List OMesh
  nodes : List ANode
deriving DecidableEq

/-- Modelled from the spec: the payload semantics a chunk can carry once its
bytes are interpreted — a mesh, a flat hierarchy record (name, signed depth
as a `Nat` here, pivot), the master scale, or nothing of interest. -/
inductive CData where
  | cnone : CData
  | cmesh : IMesh → CData
  | cnode : String → Nat → Vec3 → CData
  | cscale : ℚ → CData

/-- Modelled from the spec: a chunk of the file — 16-bit id, 32-bit declared
total length (header included), interpreted payload, and the nested chunks
of the payload (`Dot3DSFile::Chunk`, body in the missing `3DSHelper.h`). -/
inductive Chunk where
  | mk : Nat → Nat → CData → List Chunk → Chunk

/-- Declared total length of a chunk, header included. -/
def chunkLen : Chunk → Nat
  | .mk _ L _ _ => L

/-- Chunk identifier. -/
def chunkId : Chunk → Nat
  | .mk i _ _ _ => i

/-- Size of the chunk header: 16-bit id plus 32-bit length. -/
def headerSize : Nat := 6

/-- Modelled from the spec: the dispatch loop of `ParseChunk`
(src/code/3DSLoader.h:97).  `parseChunks cs r` processes the chunk sequence
`cs` under the parent's remaining byte budget `r` and returns the number of
bytes the cursor advanced, or an error when a header read runs past the
physical end of the file data.  Per the spec: loop while the budget is
positive; a chunk whose declared length exceeds the remaining budget is a
structural defect — the consumed length is clamped to the remaining budget
and the loop stops, without a fatal error; otherwise the sub-parser recurses
into the payload with the payload size as its own budget and the cursor then
advances exactly the declared length. -/
def parseChunks : List Chunk → Nat → Except Unit Nat
  | _, 0 => Except.ok 0
  | [], _ + 1 => Except.error ()
  | Chunk.mk _ L _ children :: rest, r + 1 =>
      if r + 1 < L then Except.ok (r + 1)
      else
        match parseChunks children (L - headerSize) with
        | Except.error e => Except.error e
        | Except.ok _ =>
            match parseChunks rest (r + 1 - L) with
            | Except.error e => Except.error e
            | Except.ok a => Except.ok (L + a)
termination_by cs _ => sizeOf cs
decreasing_by
  all_goals simp_wf
  all_goals omega

/-- Modelled from the spec: all meshes stored in a chunk forest, in preorder
(the mesh chunks `ParseMeshChunk` fills into the intermediate scene). -/
def collectMeshes : List Chunk → List IMesh
  | [] => []
  | Chunk.mk _ _ d children :: rest =>
      (match d with
       | CData.cmesh m => [m]
       | _ => []) ++ collectMeshes children ++ collectMeshes rest
termination_by cs => sizeOf cs
decreasing_by
  all_goals simp_wf
  all_goals omega

/-- Modelled from the spec: the flat, depth-indexed hierarchy records stored
in a chunk forest, in preorder (what `ParseHierarchyChunk` reads). -/
def collectNodes : List Chunk → List (String × Nat × Vec3)
  | [] => []
  | Chunk.mk _ _ d children :: rest =>
      (match d with
       | CData.cnode n dep p => [(n, dep, p)]
       | _ => []) ++ collectNodes children ++ collectNodes rest
termination_by cs => sizeOf cs
decreasing_by
  all_goals simp_wf
  all_goals omega

/-- Modelled from the spec: the master scale chunks found in a chunk forest,
in preorder; the importer reads the scale once from the file. -/
def collectScale : List Chunk → List ℚ
  | [] => []
  | Chunk.mk _ _ d children :: rest =>
      (match d with
       | CData.cscale q => [q]
       | _ => []) ++ collectScale children ++ collectScale rest
termination_by cs => sizeOf cs
decreasing_by
  all_goals simp_wf
  all_goals omega

/-- Modelled from the spec: a fully buffered 3DS file — its chunk forest and
its physical size in bytes. -/
structure DFile where
  chunks : List Chunk
  size : Nat

/-- Modelled from the spec: clamp one face of a mesh with `n` vertices —
any vertex index `≥ n` is replaced with the safe default index 0
(`CheckIndices`, src/code/3DSLoader.h:200). -/
def clampFace (n : Nat) (f : IFace) : IFace :=
  { f with
      i0 := if f.i0 < n then f.i0 else 0
      i1 := if f.i1 < n then f.i1 else 0
      i2 := if f.i2 < n then f.i2 else 0 }

/-- Modelled from the spec: `CheckIndices` — clamp all face indices of a mesh
to the valid range, replacing out-of-range indices by 0, never aborting (the
function is total and touches only the face array). -/
def checkIndices (m : IMesh) : IMesh :=
  { m with faces := m.faces.map (clampFace m.verts.length) }

/-- Modelled from the spec: one attribute stream of the unwelded mesh — for
each face, in order, the three attribute values its corners reference
(out-of-range references read the default). -/
def unweldVerts {α : Type} (dflt : α) (vs : List α) : List IFace → List α
  | [] => []
  | f :: rest =>
      vs.getD f.i0 dflt :: vs.getD f.i1 dflt :: vs.getD f.i2 dflt ::
        unweldVerts dflt vs rest

/-- Modelled from the spec: the face array of the unwelded mesh — face `k`
(counting from base index `b`) references the fresh corner vertices
`b+3k`, `b+3k+1`, `b+3k+2`; material and smoothing tags are kept. -/
def unweldFaces : Nat → List IFace → List IFace
  | _, [] => []
  | b, f :: rest =>
      { f with i0 := b, i1 := b + 1, i2 := b + 2 } :: unweldFaces (b + 3) rest

/-- Modelled from the spec: `MakeUnique` (src/code/3DSLoader.h:176) — vertex
unwelding.  Every face corner gets its own vertex carrying exactly one
position (and texture coordinate, when the mesh has them), so no vertex is
shared between corners needing different attribute sets. -/
def makeUnique (m : IMesh) : IMesh :=
  { verts := unweldVerts (default : Vec3) m.verts m.faces
    tex := m.tex.map (fun t => unweldVerts (default : Vec2) t m.faces)
    faces := unweldFaces 0 m.faces }

/-- A mesh is in unwelded form when its faces are exactly the canonical
per-corner faces and its attribute streams have one entry per corner. -/
def isUnwelded (m : IMesh) : Bool :=
  decide (m.faces = unweldFaces 0 m.faces) &&
  decide (m.verts.length = 3 * m.faces.length) &&
  (match m.tex with
   | none => true
   | some t => decide (t.length = 3 * m.faces.length))

/-- Modelled from the spec: the distinct materials referenced by a face list,
in order of appearance of their last occurrence. -/
def matsOf (fs : List IFace) : List Nat :=
  (fs.map (fun f => f.mat)).dedup

/-- The faces of a face list that reference material `t`. -/
def facesOfMat (fs : List IFace) (t : Nat) : List IFace :=
  fs.filter (fun f => f.mat == t)

/-- Modelled from the spec: the output sub-mesh of `m` for material `t` —
the faces referencing `t`, with their index buffer re-based to the
sub-mesh's local vertex range (`ConvertMeshes`, src/code/3DSLoader.h:148). -/
def subMeshFor (m : IMesh) (t : Nat) : OMesh :=
  { verts := unweldVerts (default : Vec3) m.verts (facesOfMat m.faces t)
    tex := m.tex.map (fun tx => unweldVerts (default : Vec2) tx (facesOfMat m.faces t))
    faces := unweldFaces 0 (facesOfMat m.faces t)
    mat := t }

/-- Modelled from the spec: `ConvertMeshes` on one intermediate mesh — one
output mesh per distinct referenced material. -/
def convertMesh (m : IMesh) : List OMesh :=
  (matsOf m.faces).map (subMeshFor m)

/-- Depth of hierarchy record `j` in the record sequence `ds` (0 when out of
range, harmless: both reconstructions read depths the same way). -/
def depthAt (ds : List Nat) (j : Nat) : Nat := ds.getD j 0

/-- Modelled from the spec: pop the ancestor stack down to depth
`depthAt ds i - 1` — remove every open ancestor whose depth is not smaller
than the arriving record's depth. -/
def popGE (ds : List Nat) (i : Nat) (st : List Nat) : List Nat :=
  st.dropWhile (fun j => decide (depthAt ds i ≤ depthAt ds j))

/-- Modelled from the spec: the stack-based hierarchy reconstruction — for
`k` further records starting at position `i` with open-ancestor stack `st`,
the parent assigned to each record (`none` = attached under the scene
root). -/
def stackGo (ds : List Nat) : Nat → Nat → List Nat → List (Option Nat)
  | 0, _, _ => []
  | k + 1, i, st =>
      (popGE ds i st).head? :: stackGo ds k (i + 1) (i :: popGE ds i st)

/-- Parent assignment produced by the stack-based reconstruction for the
whole record sequence. -/
def stackParents (ds : List Nat) : List (Option Nat) :=
  stackGo ds ds.length 0 []

/-- Modelled from the spec: the original repository's backward linear search
(`InverseNodeSearch`, src/code/3DSLoader.h:188) — the parent of record `i` is
the most recently seen earlier record of strictly smaller depth, or the scene
root when there is none. -/
def searchParent (ds : List Nat) (i : Nat) : Option Nat :=
  (List.range i).reverse.find? (fun j => decide (depthAt ds j < depthAt ds i))

/-- Parent assignment produced by the backward linear search for the whole
record sequence. -/
def searchParents (ds : List Nat) : List (Option Nat) :=
  (List.range ds.length).map (searchParent ds)

/-- Modelled from the spec: a material sub-chunk as seen by the percentage /
color micro-parsers — an int-percentage chunk (0x0030), a float-percentage
chunk (0x0031), a float color chunk (0x0010), a 24-bit color chunk (0x0011),
or any other chunk. -/
inductive MChunk where
  | percentI : Nat → MChunk
  | percentF : F32 → MChunk
  | colorF : F32 → F32 → F32 → MChunk
  | color24 : Nat → Nat → Nat → MChunk
  | other : Nat → Nat → MChunk
deriving DecidableEq

/-- Does the stream start with a percentage chunk? -/
def isPercentHead : List MChunk → Bool
  | MChunk.percentI _ :: _ => true
  | MChunk.percentF _ :: _ => true
  | _ => false

/-- Does the stream start with a color chunk? -/
def isColorHead : List MChunk → Bool
  | MChunk.colorF _ _ _ :: _ => true
  | MChunk.color24 _ _ _ :: _ => true
  | _ => false

/-- Modelled from the spec and the header doc (src/code/3DSLoader.h:63-68):
`ParsePercentageChunk` probes the chunk at the current position; a present
percentage chunk is decoded (a 0-100 word normalized to `[0,1]`) and
consumed; when no percentage chunk is found the cursor is rewound (the
returned stream is the input stream) and QNAN is returned.  The function is
total: it never raises an error. -/
def parsePercentageChunk : List MChunk → F32 × List MChunk
  | MChunk.percentI w :: rest => (F32.val ((w : ℚ) / 100), rest)
  | MChunk.percentF x :: rest => (x, rest)
  | s => (F32.qnan, s)

/-- Modelled from the spec and the header doc (src/code/3DSLoader.h:70-76):
`ParseColorChunk` probes the chunk at the current position; a present color
chunk is decoded (float triple, or 24-bit bytes normalized to `[0,1]`) and
consumed; when no color chunk is found the cursor is rewound and QNAN is
returned in all members.  The function is total: it never raises an error. -/
def parseColorChunk : List MChunk → (F32 × F32 × F32) × List MChunk
  | MChunk.colorF r g b :: rest => ((r, g, b), rest)
  | MChunk.color24 r g b :: rest =>
      ((F32.val ((r : ℚ) / 255), F32.val ((g : ℚ) / 255), F32.val ((b : ℚ) / 255)), rest)
  | s => ((F32.qnan, F32.qnan, F32.qnan), s)

/-- Scale a position by the master scale factor. -/
def scaleVec3 (q : ℚ) (v : Vec3) : Vec3 := (q * v.1, q * v.2.1, q * v.2.2)

/-- Modelled from the spec: `ApplyMasterScale` (src/code/3DSLoader.h:194) —
multiply every vertex position of every mesh and every node pivot point of
the finished scene by the master scale factor; nothing else is touched. -/
def applyMasterScale (q : ℚ) (s : OScene) : OScene :=
  { meshes := s.meshes.map (fun m => { m with verts := m.verts.map (scaleVec3 q) })
    nodes := s.nodes.map (fun n => { n with pivot := scaleVec3 q n.pivot }) }

/-- The master scale factor read once from the file (default 1 when the file
carries none). -/
def scaleOf (cs : List Chunk) : ℚ := (collectScale cs).headD 1

/-- `CheckIndices` followed by `MakeUnique`: the in-place repair every
intermediate mesh goes through before conversion. -/
def repairMesh (m : IMesh) : IMesh := makeUnique (checkIndices m)

/-- Pair each hierarchy record with the parent handle its reconstruction
assigned, yielding the node arena. -/
def zipNodes : List (String × Nat × Vec3) → List (Option Nat) → List ANode
  | r :: rs, p :: ps => { name := r.1, pivot := r.2.2, parent := p } :: zipNodes rs ps
  | _, _ => []

/-- Modelled from the spec: the scene as it stands right after conversion and
before the master scale is applied — repaired and unwelded meshes split per
material, and the node arena resolved from the flat hierarchy records. -/
def preScaleScene (cs : List Chunk) : OScene :=
  { meshes := ((collectMeshes cs).map repairMesh).flatMap convertMesh
    nodes :=
      zipNodes (collectNodes cs)
        (stackParents ((collectNodes cs).map (fun r => r.2.1))) }

/-- Modelled from the spec: the scene produced by a successful decode — the
conversion output with the master scale applied once, at the very end. -/
def buildScene (cs : List Chunk) : OScene :=
  applyMasterScale (scaleOf cs) (preScaleScene cs)

/-- Chunk id of the single top-level container chunk of a 3DS file. -/
def mainChunkId : Nat := 19789

/-- Modelled from the spec: `InternReadFile` (src/code/3DSLoader.h:46) — the
whole decode: expect exactly one top-level container chunk, validate the
chunk structure against the file size, then run the pipeline (repair,
unwelding, per-material split, hierarchy resolution, master scale) and
return the finished scene; any structural error aborts the decode with a
descriptive message and no scene is produced. -/
def internReadFile (f : DFile) : Except String OScene :=
  match f.chunks with
  | [c] =>
      if chunkId c = mainChunkId then
        match parseChunks f.chunks f.size with
        | Except.error _ => Except.error "3DS: chunk structure runs past the end of the file"
        | Except.ok _ => Except.ok (buildScene f.chunks)
      else Except.error "3DS: first chunk is not the 3ds main chunk"
  | _ => Except.error "3DS: expected exactly one top-level container chunk"

/-- Modelled from the spec: the importer's mutable member state
(src/code/3DSLoader.h:203-230): the loaded buffer, the read cursor, the
backtrack position, the last node index, the scene under construction, and
the master scale. -/
structure ImporterSt where
  mBuffer : Option DFile
  mCurrent : Nat
  mLast : Nat
  mLastNodeIndex : Int
  mScene : Option OScene
  mMasterScale : ℚ
  mBackgroundImage : String
  bHasBG : Bool

/-- Modelled from the spec: the cheap structural probe — the content matches
the format when the file loads and its first chunk is the 3ds main
container; no full decode is performed. -/
def probe3DS (f : Option DFile) : Bool :=
  match f with
  | none => false
  | some f =>
      match f.chunks with
      | [c] => decide (chunkId c = mainChunkId)
      | _ => false

/-- Modelled from the spec and the `const` qualifier on `CanRead`
(src/code/3DSLoader.h:39): probing inspects the file through the handler and
returns whether it matches, leaving every importer member untouched. -/
def canRead (st : ImporterSt) (fsys : String → Option DFile) (p : String) :
    Bool × ImporterSt :=
  (probe3DS (fsys p), st)

/-- Probe the same file `n` times in a row, threading the importer state. -/
def probeN : Nat → ImporterSt → (String → Option DFile) → String → ImporterSt
  | 0, st, _, _ => st
  | n + 1, st, fsys, p => probeN n (canRead st fsys p).2 fsys p

/-- Modelled from the spec: the decode entry point on the importer object —
load the file through the handler, decode it, and leave the members in their
post-decode state. -/
def internReadFileSt (st : ImporterSt) (fsys : String → Option DFile) (p : String) :
    Except String OScene × ImporterSt :=
  match fsys p with
  | none => (Except.error "3DS: failed to open file", st)
  | some f =>
      (internReadFile f,
        { st with
            mBuffer := some f
            mCurrent := 0
            mLast := 0
            mScene := none
            mMasterScale := scaleOf f.chunks })

/-- The concrete degenerate mesh refuting C3 as universally stated: zero
vertices but one face. -/
def zeroVertMesh : IMesh :=
  { verts := [], tex := none
    faces := [{ i0 := 0, i1 := 0, i2 := 0, mat := 0, smooth := 0 }] }

/-- The concrete two-material mesh of the spec's splitting scenario. -/
def twoMatMesh : IMesh :=
  { verts := [(0, 0, 0), (1, 0, 0), (0, 1, 0), (1, 1, 0)], tex := none
    faces := [IFace.mk 0 1 2 0 0, IFace.mk 1 2 3 1 0] }

/-- The demonstration file: a single, empty top-level container chunk. -/
def demoFile : DFile :=
  { chunks := [Chunk.mk mainChunkId headerSize CData.cnone []], size := headerSize }

/-- Record `j` is still visible at step `i`: it was seen earlier and no
record between it and the current position has depth at most its depth. -/
def Visible (ds : List Nat) (i j : Nat) : Prop :=
  j < i ∧ ∀ k, j < k → k < i → depthAt ds j < depthAt ds k

/-- The invariant of the stack reconstruction at step `i`: the stack holds
exactly the visible records, ordered with the most recent on top. -/
def StackInv (ds : List Nat) (i : Nat) (st : List Nat) : Prop :=
  (∀ j, j ∈ st ↔ Visible ds i j) ∧ List.Pairwise (fun a b => b < a) st

/-- A fully populated output mesh: one vertex (and texture coordinate, when
present) per face corner, every face index inside the local vertex range,
and every face carrying the mesh's single material. -/
def meshOK (o : OMesh) : Bool :=
  decide (o.verts.length = 3 * o.faces.length) &&
  (match o.tex with
   | none => true
   | some t => decide (t.length = o.verts.length)) &&
  o.faces.all (fun f =>
    decide (f.i0 < o.verts.length) && decide (f.i1 < o.verts.length) &&
    decide (f.i2 < o.verts.length) && decide (f.mat = o.mat))

/-- Every node of the arena suffix starting at handle `k` points to an
earlier handle (or to the scene root). -/
def nodesValidFrom : Nat → List ANode → Bool
  | _, [] => true
  | k, n :: rest =>
      (match n.parent with
       | none => true
       | some j => decide (j < k)) && nodesValidFrom (k + 1) rest

/-- A fully populated output scene: every mesh is well formed and the node
arena has no forward or dangling parent references. -/
def scenePopulated (s : OScene) : Bool :=
  s.meshes.all meshOK && nodesValidFrom 0 s.nodes

instance {ε α : Type} [DecidableEq ε] [DecidableEq α] : DecidableEq (Except ε α) :=
  fun a b =>
    match a, b with
    | Except.ok x, Except.ok y => decidable_of_iff (x = y) (by simp)
    | Except.error x, Except.error y => decidable_of_iff (x = y) (by simp)
    | Except.ok _, Except.error _ => isFalse (fun hc => nomatch hc)
    | Except.error _, Except.ok _ => isFalse (fun hc => nomatch hc)

/-- The dispatch loop never advances the cursor past the budget it was
given. -/
theorem parseChunks_le :
    ∀ (cs : List Chunk) (r a : Nat), parseChunks cs r = Except.ok a → a ≤ r := by
  intro cs
  induction cs with
  | nil =>
      intro r a h
      cases r with
      | zero => simp [parseChunks] at h; omega
      | succ n => simp [parseChunks] at h
  | cons c rest ih =>
      intro r a h
      cases r with
      | zero => simp [parseChunks] at h; omega
      | succ n =>
          cases c with
          | mk cid L d children =>
              simp only [parseChunks] at h
              by_cases hcl : n + 1 < L
              · rw [if_pos hcl] at h
                cases h
                omega
              · rw [if_neg hcl] at h
                cases hch : parseChunks children (L - headerSize) with
                | error e => rw [hch] at h; simp at h
                | ok w =>
                    rw [hch] at h
                    cases hr : parseChunks rest (n + 1 - L) with
                    | error e => rw [hr] at h; simp at h
                    | ok a' =>
                        rw [hr] at h
                        have hle := ih (n + 1 - L) a' hr
                        cases h
                        omega

/-- Claim C1: for every chunk with declared length `L` parsed inside a parent
whose remaining byte budget is `r`, the dispatcher advances the read cursor
at most `min L r` bytes from the chunk's start: when `L > r` the declared
length is clamped to the remaining budget — the loop returns `Except.ok r`
(that is, `min L r`) and stops without a fatal error; when `L ≤ r` the chunk
itself accounts for exactly `min L r = L` bytes before the loop turns to the
sibling chunks; and no successful run of the loop ever advances the cursor
past the parent's budget. -/
theorem parseChunk_budget_clamp (cid L : Nat) (d : CData)
    (children rest : List Chunk) (r : Nat) :
    (∀ a, parseChunks (Chunk.mk cid L d children :: rest) r = Except.ok a → a ≤ r)
    ∧ (0 < r → r < L →
        parseChunks (Chunk.mk cid L d children :: rest) r = Except.ok (min L r))
    ∧ (0 < r → L ≤ r →
        parseChunks (Chunk.mk cid L d children :: rest) r
          = (parseChunks children (L - headerSize)).bind
              (fun _ => (parseChunks rest (r - L)).map (fun a => min L r + a))) := by
  refine ⟨fun a h => parseChunks_le _ r a h, ?_, ?_⟩
  · intro hr hlt
    cases r with
    | zero => omega
    | succ n =>
        have : min L (n + 1) = n + 1 := Nat.min_eq_right (Nat.le_of_lt hlt)
        rw [this]
        simp only [parseChunks]
        rw [if_pos hlt]
  · intro hr hle
    cases r with
    | zero => omega
    | succ n =>
        have hmin : min L (n + 1) = L := Nat.min_eq_left hle
        rw [hmin]
        simp only [parseChunks]
        rw [if_neg (by omega)]
        cases hch : parseChunks children (L - headerSize) with
        | error e => simp [Except.bind]
        | ok w =>
            cases hrest : parseChunks rest (n + 1 - L) with
            | error e => simp [Except.bind, Except.map]
            | ok a => simp [Except.bind, Except.map]

/-- Witness for C1 at a concrete input: a chunk declaring 10 bytes inside a
parent with only 8 bytes of budget is clamped to 8 and the loop returns
successfully. -/
theorem parseChunk_budget_clamp_witness :
    0 < 8 ∧ 8 < 10 ∧
      parseChunks [Chunk.mk 16384 10 CData.cnone []] 8 = Except.ok (min 10 8) :=
  ⟨by decide, by decide,
    (parseChunk_budget_clamp 16384 10 CData.cnone [] [] 8).2.1 (by decide) (by decide)⟩

/-- Counterexample to claim C3 as stated: on a mesh with zero vertices and
one face, `CheckIndices` replaces the out-of-range indices by the safe
default 0, but index 0 does not lie in the empty range `[0, 0)` — so it is
not true that after `CheckIndices` every vertex index of every face lies in
`[0, vertexCount)` for every mesh. -/
theorem checkIndices_zero_vert_counterexample :
    ((checkIndices zeroVertMesh).faces.all
        (fun f =>
          decide (f.i0 < (checkIndices zeroVertMesh).verts.length) &&
          decide (f.i1 < (checkIndices zeroVertMesh).verts.length) &&
          decide (f.i2 < (checkIndices zeroVertMesh).verts.length))) = false := by
  decide

/-- Claim C3 (amended): for every mesh with at least one vertex, after
`CheckIndices` every vertex index of every face lies in `[0, vertexCount)`;
each face is the clamped image of the original face, every index that was
`≥ vertexCount` having been replaced by index 0; the vertex and texture
arrays are untouched; and `CheckIndices` is a total function — it never
aborts the decode. -/
theorem checkIndices_in_range (m : IMesh) (hv : 0 < m.verts.length) :
    (∀ f ∈ (checkIndices m).faces,
        f.i0 < m.verts.length ∧ f.i1 < m.verts.length ∧ f.i2 < m.verts.length)
    ∧ (checkIndices m).faces = m.faces.map (clampFace m.verts.length)
    ∧ (checkIndices m).verts = m.verts
    ∧ (checkIndices m).tex = m.tex := by
  refine ⟨?_, rfl, rfl, rfl⟩
  intro f hf
  simp only [checkIndices, List.mem_map] at hf
  obtain ⟨g, _, hg⟩ := hf
  subst hg
  simp only [clampFace]
  refine ⟨?_, ?_, ?_⟩ <;> (split <;> omega)

/-- Witness for the amended C3 at a concrete input: a one-vertex mesh whose
single face uses the out-of-range indices 5 and 7; after `CheckIndices` all
of its indices lie in `[0, 1)`. -/
theorem checkIndices_in_range_witness :
    0 < (IMesh.mk [(0, 0, 0)] none [IFace.mk 5 0 7 0 0]).verts.length ∧
      (∀ f ∈ (checkIndices (IMesh.mk [(0, 0, 0)] none [IFace.mk 5 0 7 0 0])).faces,
          f.i0 < (IMesh.mk [(0, 0, 0)] none [IFace.mk 5 0 7 0 0]).verts.length ∧
          f.i1 < (IMesh.mk [(0, 0, 0)] none [IFace.mk 5 0 7 0 0]).verts.length ∧
          f.i2 < (IMesh.mk [(0, 0, 0)] none [IFace.mk 5 0 7 0 0]).verts.length) :=
  ⟨by decide,
    (checkIndices_in_range (IMesh.mk [(0, 0, 0)] none [IFace.mk 5 0 7 0 0])
      (by decide)).1⟩

/-- Unwelding produces one face per input face. -/
theorem unweldFaces_length : ∀ (b : Nat) (fs : List IFace),
    (unweldFaces b fs).length = fs.length := by
  intro b fs
  induction fs generalizing b with
  | nil => rfl
  | cons f rest ih => simp [unweldFaces, ih]

/-- Unwelding produces one attribute entry per face corner. -/
theorem unweldVerts_length {α : Type} (d : α) (vs : List α) :
    ∀ fs : List IFace, (unweldVerts d vs fs).length = 3 * fs.length := by
  intro fs
  induction fs with
  | nil => rfl
  | cons f rest ih => simp [unweldVerts, ih]; ring

/-- Re-basing the canonical per-corner faces changes nothing. -/
theorem unweldFaces_idem : ∀ (b : Nat) (fs : List IFace),
    unweldFaces b (unweldFaces b fs) = unweldFaces b fs := by
  intro b fs
  induction fs generalizing b with
  | nil => rfl
  | cons f rest ih => simp [unweldFaces, ih]

/-- Gathering per-corner attributes along the canonical faces starting at
base `b` reads back the attribute stream from position `b` on, provided the
stream ends exactly at the last corner. -/
theorem unweldVerts_unweldFaces {α : Type} (d : α) :
    ∀ (fs : List IFace) (b : Nat) (vs : List α),
      vs.length = b + 3 * fs.length →
      unweldVerts d vs (unweldFaces b fs) = vs.drop b := by
  intro fs
  induction fs with
  | nil =>
      intro b vs hlen
      simp only [List.length_nil, Nat.mul_zero, Nat.add_zero] at hlen
      simp [unweldFaces, unweldVerts, ← hlen, List.drop_length]
  | cons f rest ih =>
      intro b vs hlen
      have hlen' : vs.length = b + 3 * rest.length + 3 := by
        rw [hlen, List.length_cons]
        ring
      have hb0 : b < vs.length := by omega
      have hb1 : b + 1 < vs.length := by omega
      have hb2 : b + 2 < vs.length := by omega
      have hrest : unweldVerts d vs (unweldFaces (b + 3) rest) = vs.drop (b + 3) := by
        apply ih
        simp [hlen, List.length_cons]
        ring
      simp only [unweldFaces, unweldVerts, hrest]
      rw [List.getD_eq_getElem vs d hb0, List.getD_eq_getElem vs d hb1,
        List.getD_eq_getElem vs d hb2]
      rw [List.drop_eq_getElem_cons hb0, List.drop_eq_getElem_cons hb1,
        List.drop_eq_getElem_cons hb2]

/-- Claim C6: `MakeUnique` is idempotent — applying it twice yields a mesh
identical to applying it once (vertex, texture-coordinate and face arrays
all equal) — and on a mesh that is already in unwelded form it is a no-op. -/
theorem makeUnique_idempotent (m : IMesh) :
    makeUnique (makeUnique m) = makeUnique m
    ∧ (isUnwelded m = true → makeUnique m = m) := by
  obtain ⟨mv, mt, mf⟩ := m
  constructor
  · have hfaces : unweldFaces 0 (unweldFaces 0 mf) = unweldFaces 0 mf :=
      unweldFaces_idem 0 mf
    have hverts :
        unweldVerts (default : Vec3) (unweldVerts (default : Vec3) mv mf)
            (unweldFaces 0 mf)
          = unweldVerts (default : Vec3) mv mf := by
      have := unweldVerts_unweldFaces (default : Vec3) mf 0
        (unweldVerts (default : Vec3) mv mf)
        (by simp [unweldVerts_length])
      simpa using this
    have htex :
        (mt.map (fun t => unweldVerts (default : Vec2) t mf)).map
            (fun t => unweldVerts (default : Vec2) t (unweldFaces 0 mf))
          = mt.map (fun t => unweldVerts (default : Vec2) t mf) := by
      cases mt with
      | none => rfl
      | some t =>
          have := unweldVerts_unweldFaces (default : Vec2) mf 0
            (unweldVerts (default : Vec2) t mf)
            (by simp [unweldVerts_length])
          simp only [Option.map]
          rw [show unweldVerts (default : Vec2) (unweldVerts (default : Vec2) t mf)
                (unweldFaces 0 mf) = unweldVerts (default : Vec2) t mf by simpa using this]
    simp only [makeUnique]
    rw [IMesh.mk.injEq]
    exact ⟨hverts, htex, hfaces⟩
  · intro hu
    simp only [isUnwelded, Bool.and_eq_true, decide_eq_true_eq] at hu
    obtain ⟨⟨hf, hv⟩, ht⟩ := hu
    have hverts : unweldVerts (default : Vec3) mv mf = mv := by
      conv_lhs => rw [hf]
      have := unweldVerts_unweldFaces (default : Vec3) mf 0 mv (by omega)
      simpa using this
    have hfaces : unweldFaces 0 mf = mf := hf.symm
    have htex : mt.map (fun t => unweldVerts (default : Vec2) t mf) = mt := by
      cases mt with
      | none => rfl
      | some t =>
          have htl : t.length = 3 * mf.length := by simpa using ht
          have htex2 : unweldVerts (default : Vec2) t mf = t := by
            conv_lhs => rw [hf]
            have := unweldVerts_unweldFaces (default : Vec2) mf 0 t (by omega)
            simpa using this
          simp only [Option.map]
          rw [htex2]
    simp only [makeUnique]
    rw [IMesh.mk.injEq]
    exact ⟨hverts, htex, hfaces⟩

/-- Witness for C6 at a concrete input: a mesh already in unwelded form (one
triangle over exactly its three corner vertices) on which `MakeUnique` is a
no-op. -/
theorem makeUnique_idempotent_witness :
    isUnwelded (IMesh.mk [(0, 0, 0), (1, 0, 0), (0, 1, 0)] none
        [IFace.mk 0 1 2 5 1]) = true ∧
      makeUnique (IMesh.mk [(0, 0, 0), (1, 0, 0), (0, 1, 0)] none
          [IFace.mk 0 1 2 5 1])
        = IMesh.mk [(0, 0, 0), (1, 0, 0), (0, 1, 0)] none [IFace.mk 0 1 2 5 1] :=
  ⟨by decide,
    (makeUnique_idempotent
        (IMesh.mk [(0, 0, 0), (1, 0, 0), (0, 1, 0)] none [IFace.mk 0 1 2 5 1])).2
      (by decide)⟩

/-- The partition of a face list by referenced material: the number of faces
referencing `t` is the count of `t` among the face material tags. -/
theorem facesOfMat_length (fs : List IFace) (t : Nat) :
    (facesOfMat fs t).length = (fs.map (fun f => f.mat)).count t := by
  rw [List.count_eq_countP, List.countP_map, facesOfMat,
    ← List.countP_eq_length_filter]
  rfl

/-- Every face of an unwelded face list keeps the material tag of a source
face and has all three corner indices inside `[b, b + 3·count)`. -/
theorem mem_unweldFaces :
    ∀ (fs : List IFace) (b : Nat) (f : IFace), f ∈ unweldFaces b fs →
      (∃ g ∈ fs, f.mat = g.mat ∧ f.smooth = g.smooth)
      ∧ b ≤ f.i0 ∧ f.i0 < b + 3 * fs.length ∧ f.i1 < b + 3 * fs.length
      ∧ f.i2 < b + 3 * fs.length := by
  intro fs
  induction fs with
  | nil => intro b f hf; simp [unweldFaces] at hf
  | cons g rest ih =>
      intro b f hf
      simp only [unweldFaces, List.mem_cons] at hf
      cases hf with
      | inl h =>
          subst h
          refine ⟨⟨g, List.mem_cons_self g rest, rfl, rfl⟩, ?_, ?_, ?_, ?_⟩
          · exact Nat.le_refl b
          · show b < b + 3 * (g :: rest).length
            rw [List.length_cons]
            omega
          · show b + 1 < b + 3 * (g :: rest).length
            rw [List.length_cons]
            omega
          · show b + 2 < b + 3 * (g :: rest).length
            rw [List.length_cons]
            omega
      | inr h =>
          obtain ⟨⟨g', hg', hmat, hsm⟩, hb, h0, h1, h2⟩ := ih (b + 3) f h
          refine ⟨⟨g', List.mem_cons_of_mem g hg', hmat, hsm⟩, ?_, ?_, ?_, ?_⟩ <;>
            (first
              | omega
              | (simp only [List.length_cons]; omega))

/-- Claim C5: `ConvertMeshes` splits an intermediate mesh into exactly one
output mesh per distinct referenced material (so `N` output meshes whenever
the faces reference `N` distinct materials, in particular when `N > 1`); the
face counts of the output meshes sum to the face count of the original mesh;
and every face of every output mesh carries that mesh's single material and
has its index triple re-based into the sub-mesh's local vertex range. -/
theorem convertMesh_splits (m : IMesh) :
    (convertMesh m).length = (matsOf m.faces).length
    ∧ ((convertMesh m).map (fun o => o.faces.length)).sum = m.faces.length
    ∧ (∀ o ∈ convertMesh m, ∀ f ∈ o.faces,
        f.mat = o.mat ∧ f.i0 < o.verts.length ∧ f.i1 < o.verts.length
          ∧ f.i2 < o.verts.length) := by
  refine ⟨by simp [convertMesh], ?_, ?_⟩
  · have hstep :
        (convertMesh m).map (fun o => o.faces.length)
          = (m.faces.map (fun f => f.mat)).dedup.map
              (fun t => (m.faces.map (fun f => f.mat)).count t) := by
      rw [convertMesh, List.map_map]
      apply List.map_congr_left
      intro t ht
      simp only [Function.comp, subMeshFor, unweldFaces_length]
      exact facesOfMat_length m.faces t
    rw [hstep, List.sum_map_count_dedup_eq_length, List.length_map]
  · intro o ho f hf
    simp only [convertMesh, List.mem_map] at ho
    obtain ⟨t, ht, rfl⟩ := ho
    simp only [subMeshFor] at hf ⊢
    obtain ⟨⟨g, hg, hmat, _⟩, _, h0, h1, h2⟩ := mem_unweldFaces _ 0 f hf
    have hgmat : g.mat = t := by
      have := List.of_mem_filter hg
      simpa using this
    refine ⟨by rw [hmat, hgmat], ?_, ?_, ?_⟩ <;>
      simp only [unweldVerts_length] <;> omega

/-- Witness for C5 at a concrete input: the two-material triangle mesh splits
into exactly two output meshes whose face counts sum to the original count,
and the first sub-mesh's face carries its material with re-based indices. -/
theorem convertMesh_splits_witness :
    1 < (matsOf twoMatMesh.faces).length
    ∧ (convertMesh twoMatMesh).length = (matsOf twoMatMesh.faces).length
    ∧ ((convertMesh twoMatMesh).map (fun o => o.faces.length)).sum
        = twoMatMesh.faces.length
    ∧ subMeshFor twoMatMesh 0 ∈ convertMesh twoMatMesh
    ∧ IFace.mk 0 1 2 0 0 ∈ (subMeshFor twoMatMesh 0).faces
    ∧ ((IFace.mk 0 1 2 0 0).mat = (subMeshFor twoMatMesh 0).mat
        ∧ (IFace.mk 0 1 2 0 0).i0 < (subMeshFor twoMatMesh 0).verts.length
        ∧ (IFace.mk 0 1 2 0 0).i1 < (subMeshFor twoMatMesh 0).verts.length
        ∧ (IFace.mk 0 1 2 0 0).i2 < (subMeshFor twoMatMesh 0).verts.length) :=
  ⟨by decide, (convertMesh_splits twoMatMesh).1, (convertMesh_splits twoMatMesh).2.1,
    by decide, by decide,
    (convertMesh_splits twoMatMesh).2.2 (subMeshFor twoMatMesh 0) (by decide)
      (IFace.mk 0 1 2 0 0) (by decide)⟩

/-- Claim C7: when the expected optional percentage or color sub-chunk is
absent at the current position, the micro-parsers rewind the cursor (the
returned stream is exactly the input stream), return the "absent" sentinel
(QNAN, per the header documentation src/code/3DSLoader.h:63-76), and — being
total functions — never raise an error, so the surrounding dispatch loop
resumes on an unchanged stream. -/
theorem parseOptional_absent_rewind (s : List MChunk) :
    (isPercentHead s = false → parsePercentageChunk s = (F32.qnan, s))
    ∧ (isColorHead s = false →
        parseColorChunk s = ((F32.qnan, F32.qnan, F32.qnan), s)) := by
  constructor
  · intro h
    cases s with
    | nil => rfl
    | cons c rest =>
        cases c with
        | percentI w => simp [isPercentHead] at h
        | percentF x => simp [isPercentHead] at h
        | colorF r g b => rfl
        | color24 r g b => rfl
        | other i l => rfl
  · intro h
    cases s with
    | nil => rfl
    | cons c rest =>
        cases c with
        | percentI w => rfl
        | percentF x => rfl
        | colorF r g b => simp [isColorHead] at h
        | color24 r g b => simp [isColorHead] at h
        | other i l => rfl

/-- Witness for C7 at a concrete input: a stream starting with an unrelated
chunk has neither a percentage nor a color chunk at the cursor; both
micro-parsers return QNAN and leave the stream untouched. -/
theorem parseOptional_absent_rewind_witness :
    isPercentHead [MChunk.other 16400 14] = false
    ∧ isColorHead [MChunk.other 16400 14] = false
    ∧ parsePercentageChunk [MChunk.other 16400 14]
        = (F32.qnan, [MChunk.other 16400 14])
    ∧ parseColorChunk [MChunk.other 16400 14]
        = ((F32.qnan, F32.qnan, F32.qnan), [MChunk.other 16400 14]) :=
  ⟨by decide, by decide,
    (parseOptional_absent_rewind [MChunk.other 16400 14]).1 (by decide),
    (parseOptional_absent_rewind [MChunk.other 16400 14]).2 (by decide)⟩

/-- Counterexample to claim C8 as stated: at a concrete input with no
percentage chunk at the cursor, `ParsePercentageChunk` hands absence back as
the QNAN value of the numeric type itself — the reserved not-a-number
sentinel, exactly what the claim says is never used — with no presence flag
alongside, and the sentinel propagates through downstream arithmetic
(scaling the "absent" percentage still yields QNAN).  `ParseColorChunk`
likewise returns QNAN in all members. -/
theorem percentage_qnan_counterexample :
    (parsePercentageChunk [MChunk.other 43 8]).1.isNaN = true
    ∧ F32.mul (parsePercentageChunk [MChunk.other 43 8]).1 (F32.val 2) = F32.qnan
    ∧ (parseColorChunk [MChunk.other 43 8]).1 = (F32.qnan, F32.qnan, F32.qnan) := by
  refine ⟨rfl, rfl, rfl⟩

/-- Claim C8 (amended): absence of a material color or percentage value is
represented in-band by the reserved QNAN numeric sentinel returned in the
value itself (as the header documents for `ParsePercentageChunk` and
`ParseColorChunk`); no explicit presence flag accompanies the value, so an
absent value that is not tested for the sentinel propagates QNAN into
downstream arithmetic such as scaling. -/
theorem percentage_absent_is_qnan (s : List MChunk) :
    (isPercentHead s = false →
      (parsePercentageChunk s).1 = F32.qnan
      ∧ ∀ x, F32.mul (parsePercentageChunk s).1 x = F32.qnan)
    ∧ (isColorHead s = false →
        (parseColorChunk s).1 = (F32.qnan, F32.qnan, F32.qnan)) := by
  constructor
  · intro h
    have hq := (parseOptional_absent_rewind s).1 h
    rw [hq]
    refine ⟨rfl, fun x => ?_⟩
    simp [F32.mul]
  · intro h
    have hq := (parseOptional_absent_rewind s).2 h
    rw [hq]

/-- Witness for the amended C8 at a concrete input. -/
theorem percentage_absent_is_qnan_witness :
    isPercentHead [MChunk.other 43 8] = false
    ∧ (parsePercentageChunk [MChunk.other 43 8]).1 = F32.qnan
    ∧ F32.mul (parsePercentageChunk [MChunk.other 43 8]).1 (F32.val 100) = F32.qnan :=
  ⟨by decide,
    ((percentage_absent_is_qnan [MChunk.other 43 8]).1 (by decide)).1,
    ((percentage_absent_is_qnan [MChunk.other 43 8]).1 (by decide)).2 (F32.val 100)⟩

/-- Claim C9: `ApplyMasterScale` multiplies every vertex position of every
mesh and every node pivot point by the master scale factor — with factor 2
this exactly doubles every coordinate — while faces, texture coordinates,
material assignments, node names and the node hierarchy are left unchanged;
and in the decode pipeline it runs exactly once, as the very last stage,
after conversion: every successful decode factors as `applyMasterScale`
applied to the converted, not-yet-scaled scene. -/
theorem applyMasterScale_spec (q : ℚ) (s : OScene) :
    (applyMasterScale q s).meshes.map (fun o => o.verts)
        = s.meshes.map (fun o => o.verts.map (scaleVec3 q))
    ∧ (applyMasterScale q s).nodes.map (fun n => n.pivot)
        = s.nodes.map (fun n => scaleVec3 q n.pivot)
    ∧ (applyMasterScale 2 s).meshes.map (fun o => o.verts)
        = s.meshes.map (fun o => o.verts.map
            (fun v => (v.1 + v.1, v.2.1 + v.2.1, v.2.2 + v.2.2)))
    ∧ (applyMasterScale q s).meshes.map (fun o => o.faces)
        = s.meshes.map (fun o => o.faces)
    ∧ (applyMasterScale q s).meshes.map (fun o => o.tex)
        = s.meshes.map (fun o => o.tex)
    ∧ (applyMasterScale q s).meshes.map (fun o => o.mat)
        = s.meshes.map (fun o => o.mat)
    ∧ (applyMasterScale q s).nodes.map (fun n => n.name)
        = s.nodes.map (fun n => n.name)
    ∧ (applyMasterScale q s).nodes.map (fun n => n.parent)
        = s.nodes.map (fun n => n.parent)
    ∧ (∀ (f : DFile) (s' : OScene), internReadFile f = Except.ok s' →
        s' = applyMasterScale (scaleOf f.chunks) (preScaleScene f.chunks)) := by
  refine ⟨by simp [applyMasterScale], by simp [applyMasterScale], ?_,
    by simp [applyMasterScale], by simp [applyMasterScale],
    by simp [applyMasterScale], by simp [applyMasterScale],
    by simp [applyMasterScale], ?_⟩
  · simp only [applyMasterScale, List.map_map]
    apply List.map_congr_left
    intro o ho
    simp only [Function.comp]
    apply List.map_congr_left
    intro v hv
    simp only [scaleVec3]
    refine congrArg₂ _ (by ring) (congrArg₂ _ (by ring) (by ring))
  · intro f s' h
    unfold internReadFile at h
    split at h
    · split at h
      · split at h
        · exact absurd h (by simp)
        · simp only [Except.ok.injEq] at h
          exact h.symm
      · exact absurd h (by simp)
    · exact absurd h (by simp)

/-- Witness for C9 at a concrete input: the demonstration file decodes
successfully and its scene is exactly the master-scaled conversion output. -/
theorem applyMasterScale_spec_witness :
    internReadFile demoFile = Except.ok (OScene.mk [] [])
    ∧ OScene.mk [] []
        = applyMasterScale (scaleOf demoFile.chunks) (preScaleScene demoFile.chunks) := by
  have hok : internReadFile demoFile = Except.ok (OScene.mk [] []) := by
    simp [internReadFile, demoFile, chunkId, mainChunkId, parseChunks, headerSize,
      buildScene, preScaleScene, collectMeshes, collectNodes, collectScale, scaleOf,
      stackParents, stackGo, zipNodes, applyMasterScale]
  exact ⟨hok,
    (applyMasterScale_spec 2 (OScene.mk [] [])).2.2.2.2.2.2.2.2 demoFile
      (OScene.mk [] []) hok⟩

/-- Claim C10: probing is side-effect-free — `CanRead` is `const`
(src/code/3DSLoader.h:39), so probing any number of times leaves every
importer member (buffer, cursor, backtrack position, node index,
intermediate scene, master scale) unchanged, and a decode performed after
any number of probes is identical — in result and in final importer state —
to a decode performed without probing. -/
theorem canRead_is_pure (st : ImporterSt) (fsys : String → Option DFile)
    (p : String) (n : Nat) :
    (canRead st fsys p).2 = st
    ∧ probeN n st fsys p = st
    ∧ internReadFileSt (probeN n st fsys p) fsys p = internReadFileSt st fsys p := by
  have hN : ∀ (k : Nat) (st' : ImporterSt), probeN k st' fsys p = st' := by
    intro k
    induction k with
    | zero => intro st'; rfl
    | succ m ih => intro st'; exact ih st'
  exact ⟨rfl, hN n st, by rw [hN n st]⟩

/-- `find?` returns the head of the filtered list. -/
theorem find?_head_filter {α : Type} (p : α → Bool) :
    ∀ l : List α, l.find? p = (l.filter p).head? := by
  intro l
  induction l with
  | nil => rfl
  | cons a t ih =>
      by_cases hp : p a = true
      · rw [List.find?_cons_of_pos t hp, List.filter_cons_of_pos hp]
        rfl
      · rw [List.find?_cons_of_neg t hp, List.filter_cons_of_neg hp]
        exact ih

/-- Along the stack, depth strictly increases with recency. -/
theorem stackInv_depth_mono {ds : List Nat} {i : Nat} {st : List Nat}
    (h : StackInv ds i st) :
    ∀ a ∈ st, ∀ b ∈ st, b < a → depthAt ds b < depthAt ds a := by
  intro a ha b hb hba
  obtain ⟨hbi, hvis⟩ := (h.1 b).mp hb
  obtain ⟨hai, _⟩ := (h.1 a).mp ha
  exact hvis a hba hai

/-- On a stack whose depths increase with recency, popping to the arriving
depth is the same as filtering out every depth not below it. -/
theorem popGE_eq_filter (ds : List Nat) (i : Nat) :
    ∀ st : List Nat,
      (∀ a ∈ st, ∀ b ∈ st, b < a → depthAt ds b < depthAt ds a) →
      List.Pairwise (fun a b => b < a) st →
      popGE ds i st = st.filter (fun j => decide (depthAt ds j < depthAt ds i)) := by
  intro st
  induction st with
  | nil => intro _ _; rfl
  | cons a t ih =>
      intro hmono hsort
      obtain ⟨ha, ht⟩ := List.pairwise_cons.mp hsort
      by_cases hd : depthAt ds i ≤ depthAt ds a
      · have hstep : popGE ds i (a :: t) = popGE ds i t := by
          simp [popGE, List.dropWhile_cons, hd]
        have hna : ¬ ((fun j => decide (depthAt ds j < depthAt ds i)) a = true) := by
          simp
          omega
        rw [hstep,
          ih (fun x hx y hy => hmono x (List.mem_cons_of_mem a hx)
                y (List.mem_cons_of_mem a hy)) ht,
          @List.filter_cons_of_neg Nat (fun j => decide (depthAt ds j < depthAt ds i))
            a t hna]
      · push_neg at hd
        have hstep : popGE ds i (a :: t) = a :: t := by
          simp [popGE, List.dropWhile_cons]
          omega
        rw [hstep]
        have hall : ∀ b ∈ a :: t,
            (fun j => decide (depthAt ds j < depthAt ds i)) b = true := by
          intro b hb
          rcases List.mem_cons.mp hb with hb' | hb'
          · subst hb'
            simp
            omega
          · have hba : b < a := ha b hb'
            have := hmono a (List.mem_cons_self a t) b (List.mem_cons_of_mem a hb') hba
            simp
            omega
        exact (List.filter_eq_self.mpr hall).symm

/-- One step of the reconstruction preserves the stack invariant. -/
theorem stackInv_step {ds : List Nat} {i : Nat} {st : List Nat}
    (h : StackInv ds i st) :
    StackInv ds (i + 1) (i :: popGE ds i st) := by
  have hfilter := popGE_eq_filter ds i st (stackInv_depth_mono h) h.2
  constructor
  · intro j
    rw [List.mem_cons, hfilter, List.mem_filter]
    constructor
    · intro hj
      cases hj with
      | inl hj =>
          subst hj
          exact ⟨Nat.lt_succ_self j, fun k hk1 hk2 => absurd hk2 (by omega)⟩
      | inr hj =>
          obtain ⟨hjst, hjd⟩ := hj
          obtain ⟨hji, hvis⟩ := (h.1 j).mp hjst
          refine ⟨by omega, fun k hk1 hk2 => ?_⟩
          by_cases hki : k = i
          · subst hki
            simpa using hjd
          · exact hvis k hk1 (by omega)
    · intro hv
      obtain ⟨hji, hvis⟩ := hv
      by_cases hji' : j = i
      · exact Or.inl hji'
      · refine Or.inr ⟨(h.1 j).mpr ⟨by omega, fun k hk1 hk2 => hvis k hk1 (by omega)⟩, ?_⟩
        simp
        exact hvis i (by omega) (by omega)
  · rw [hfilter]
    refine List.pairwise_cons.mpr ⟨?_, List.Pairwise.filter _ h.2⟩
    intro b hb
    rw [List.mem_filter] at hb
    exact ((h.1 b).mp hb.1).1

/-- A list that decreases along its order has its maximum at the head. -/
theorem head?_eq_of_max :
    ∀ (l : List Nat), List.Pairwise (fun x y => y < x) l →
      ∀ a ∈ l, (∀ b ∈ l, b ≤ a) → l.head? = some a := by
  intro l hs a ha hmax
  cases l with
  | nil => cases ha
  | cons h t =>
      have h1 : ∀ b ∈ t, b < h := (List.pairwise_cons.mp hs).1
      have : a = h := by
        rcases List.mem_cons.mp ha with h' | h'
        · exact h'
        · have hah := h1 a h'
          have := hmax h (List.mem_cons_self h t)
          omega
      rw [this]
      rfl

/-- Under the invariant, the node left on top after popping is exactly the
parent the backward linear search would find. -/
theorem popGE_head_eq_search {ds : List Nat} {i : Nat} {st : List Nat}
    (h : StackInv ds i st) :
    (popGE ds i st).head? = searchParent ds i := by
  have hfilter := popGE_eq_filter ds i st (stackInv_depth_mono h) h.2
  rw [hfilter, searchParent, find?_head_filter]
  set pd : Nat → Bool := fun j => decide (depthAt ds j < depthAt ds i) with hpd
  have hAmem : ∀ j, j ∈ (List.range i).reverse.filter pd ↔ j < i ∧ pd j = true := by
    intro j
    rw [List.mem_filter, List.mem_reverse, List.mem_range]
  have hBmem : ∀ j, j ∈ st.filter pd ↔ j ∈ st ∧ pd j = true := by
    intro j
    rw [List.mem_filter]
  have hBsubA : ∀ j, j ∈ st.filter pd → j ∈ (List.range i).reverse.filter pd := by
    intro j hj
    rw [hBmem] at hj
    rw [hAmem]
    exact ⟨((h.1 j).mp hj.1).1, hj.2⟩
  have hAsort : List.Pairwise (fun x y => y < x) ((List.range i).reverse.filter pd) :=
    List.Pairwise.filter _
      (List.pairwise_reverse.mpr (by simpa using List.pairwise_lt_range i))
  have hBsort : List.Pairwise (fun x y => y < x) (st.filter pd) :=
    List.Pairwise.filter _ h.2
  cases hA : (List.range i).reverse.filter pd with
  | nil =>
      have hB : st.filter pd = [] := by
        rw [List.eq_nil_iff_forall_not_mem]
        intro j hj
        have := hBsubA j hj
        rw [hA] at this
        cases this
      rw [hB]
  | cons a tA =>
      have haA : a ∈ (List.range i).reverse.filter pd := by
        rw [hA]
        exact List.mem_cons_self a tA
      have hamax : ∀ b ∈ (List.range i).reverse.filter pd, b ≤ a := by
        intro b hb
        rw [hA] at hb
        rcases List.mem_cons.mp hb with h' | h'
        · omega
        · have := (List.pairwise_cons.mp (hA ▸ hAsort)).1 b h'
          omega
      obtain ⟨hai, had⟩ := (hAmem a).mp haA
      have hadlt : depthAt ds a < depthAt ds i := by
        have := had
        rw [hpd] at this
        simpa using this
      have havis : Visible ds i a := by
        refine ⟨hai, fun k hk1 hk2 => ?_⟩
        by_contra hcon
        push_neg at hcon
        have hkd : pd k = true := by
          rw [hpd]
          simp only [decide_eq_true_eq]
          omega
        have hkA : k ∈ (List.range i).reverse.filter pd := (hAmem k).mpr ⟨hk2, hkd⟩
        have := hamax k hkA
        omega
      have haB : a ∈ st.filter pd := (hBmem a).mpr ⟨(h.1 a).mpr havis, had⟩
      have hbmax : ∀ b ∈ st.filter pd, b ≤ a := fun b hb => hamax b (hBsubA b hb)
      rw [head?_eq_of_max (st.filter pd) hBsort a haB hbmax]
      rfl

/-- The stack reconstruction agrees with the backward linear search from any
invariant-respecting state on. -/
theorem stackGo_eq_search (ds : List Nat) :
    ∀ (k i : Nat) (st : List Nat), StackInv ds i st →
      stackGo ds k i st = (List.range' i k).map (searchParent ds) := by
  intro k
  induction k with
  | zero => intro i st _; rfl
  | succ m ih =>
      intro i st hinv
      rw [stackGo, List.range'_succ, List.map_cons]
      rw [popGE_head_eq_search hinv]
      rw [ih (i + 1) (i :: popGE ds i st) (stackInv_step hinv)]

/-- The empty stack satisfies the invariant at step 0. -/
theorem stackInv_zero (ds : List Nat) : StackInv ds 0 [] := by
  constructor
  · intro j
    constructor
    · intro hj
      cases hj
    · intro hv
      exact absurd hv.1 (by omega)
  · exact List.Pairwise.nil

/-- The two hierarchy reconstructions assign identical parents on every
record sequence. -/
theorem stackParents_eq_searchParents (ds : List Nat) :
    stackParents ds = searchParents ds := by
  rw [stackParents, searchParents, List.range_eq_range']
  exact stackGo_eq_search ds ds.length 0 [] (stackInv_zero ds)

/-- Claim C4: for every sequence of flat, depth-indexed hierarchy records,
the stack-based reconstruction (pop to depth `d-1`, attach under the new
top, push at depth `d`) assigns every record exactly the same parent — hence
produces exactly the same node tree — as the original backward linear search
over previously seen records (`InverseNodeSearch`); in particular the record
sequence with depths `[0, 1, 2, 1]` yields the parent assignment
`[root, node 1, node 2, node 1]`, making the fourth node a sibling of the
second node (same parent, the first node) and a child of the first node. -/
theorem hierarchy_stack_eq_search :
    (∀ ds : List Nat, stackParents ds = searchParents ds)
    ∧ stackParents [0, 1, 2, 1] = [none, some 0, some 1, some 0]
    ∧ searchParents [0, 1, 2, 1] = [none, some 0, some 1, some 0] :=
  ⟨stackParents_eq_searchParents, by decide, by decide⟩

/-- The backward search only ever selects an earlier record as parent. -/
theorem searchParent_lt {ds : List Nat} {i j : Nat}
    (h : searchParent ds i = some j) : j < i := by
  rw [searchParent] at h
  have := List.mem_of_find?_eq_some h
  rw [List.mem_reverse, List.mem_range] at this
  exact this

/-- Every per-material sub-mesh produced by the converter is well formed. -/
theorem meshOK_subMeshFor (m : IMesh) (t : Nat) : meshOK (subMeshFor m t) = true := by
  rw [meshOK]
  simp only [Bool.and_eq_true, decide_eq_true_eq]
  refine ⟨⟨?_, ?_⟩, ?_⟩
  · simp [subMeshFor, unweldVerts_length, unweldFaces_length]
  · cases htex : m.tex with
    | none => simp [subMeshFor, htex]
    | some tx => simp [subMeshFor, htex, unweldVerts_length]
  · rw [List.all_eq_true]
    intro f hf
    simp only [subMeshFor] at hf
    obtain ⟨⟨g, hg, hmat, _⟩, _, h0, h1, h2⟩ := mem_unweldFaces _ 0 f hf
    have hgmat : g.mat = t := by
      have := List.of_mem_filter hg
      simpa using this
    simp only [subMeshFor, Bool.and_eq_true, decide_eq_true_eq, unweldVerts_length]
    exact ⟨⟨⟨by omega, by omega⟩, by omega⟩, by rw [hmat, hgmat]⟩

/-- Every output mesh of the converter is well formed. -/
theorem meshOK_convertMesh (m : IMesh) :
    ∀ o ∈ convertMesh m, meshOK o = true := by
  intro o ho
  rw [convertMesh, List.mem_map] at ho
  obtain ⟨t, _, rfl⟩ := ho
  exact meshOK_subMeshFor m t

/-- Zipping hierarchy records with the parents the backward search assigns
yields an arena whose parent handles always point backwards. -/
theorem nodesValidFrom_zip (ds : List Nat) :
    ∀ (rs : List (String × Nat × Vec3)) (k len : Nat),
      nodesValidFrom k (zipNodes rs ((List.range' k len).map (searchParent ds))) = true := by
  intro rs
  induction rs with
  | nil => intro k len; cases len <;> rfl
  | cons r rs' ih =>
      intro k len
      cases len with
      | zero => rfl
      | succ m =>
          rw [List.range'_succ, List.map_cons, zipNodes, nodesValidFrom]
          rw [Bool.and_eq_true]
          refine ⟨?_, ih (k + 1) m⟩
          cases hsp : searchParent ds k with
          | none => rfl
          | some j =>
              simp only [decide_eq_true_eq]
              exact searchParent_lt hsp

/-- Scaling a mesh leaves its well-formedness unchanged. -/
theorem meshOK_scale (q : ℚ) (o : OMesh) :
    meshOK { o with verts := o.verts.map (scaleVec3 q) } = meshOK o := by
  obtain ⟨ov, ot, ofs, om⟩ := o
  rw [meshOK, meshOK]
  simp only [List.length_map]

/-- Scaling the scene leaves mesh well-formedness unchanged. -/
theorem all_meshOK_scale (q : ℚ) :
    ∀ ms : List OMesh,
      (ms.map (fun m => { m with verts := m.verts.map (scaleVec3 q) })).all meshOK
        = ms.all meshOK := by
  intro ms
  induction ms with
  | nil => rfl
  | cons m rest ih => simp only [List.map_cons, List.all_cons, ih, meshOK_scale]

/-- Scaling the pivots leaves the arena's parent structure unchanged. -/
theorem nodesValidFrom_scale (q : ℚ) :
    ∀ (ns : List ANode) (k : Nat),
      nodesValidFrom k (ns.map (fun n => { n with pivot := scaleVec3 q n.pivot }))
        = nodesValidFrom k ns := by
  intro ns
  induction ns with
  | nil => intro k; rfl
  | cons n rest ih =>
      intro k
      rw [List.map_cons, nodesValidFrom, nodesValidFrom, ih (k + 1)]

/-- Every scene the pipeline builds is fully populated. -/
theorem scenePopulated_buildScene (cs : List Chunk) :
    scenePopulated (buildScene cs) = true := by
  rw [buildScene, applyMasterScale, scenePopulated]
  simp only [all_meshOK_scale, nodesValidFrom_scale]
  rw [Bool.and_eq_true]
  constructor
  · rw [preScaleScene]
    simp only []
    rw [List.all_eq_true]
    intro o ho
    rw [List.mem_flatMap] at ho
    obtain ⟨m, _, hom⟩ := ho
    exact meshOK_convertMesh m o hom
  · rw [preScaleScene]
    simp only []
    rw [stackParents_eq_searchParents, searchParents, List.range_eq_range']
    exact nodesValidFrom_zip _ _ 0 _

/-- Claim C2: `InternReadFile` is atomic with respect to structural errors —
for every input file the decode either fails with a descriptive (non-empty)
format-error message, returning no scene at all, or completes and returns a
fully populated scene graph (well-formed meshes, well-founded node arena). -/
theorem internReadFile_atomic (f : DFile) :
    (∃ e, internReadFile f = Except.error e ∧ e.length ≠ 0)
    ∨ (∃ s, internReadFile f = Except.ok s ∧ scenePopulated s = true) := by
  obtain ⟨cs, sz⟩ := f
  rcases cs with _ | ⟨c, rest⟩
  · exact Or.inl ⟨_, rfl, by decide⟩
  · rcases rest with _ | ⟨c2, rest2⟩
    · by_cases hid : chunkId c = mainChunkId
      · cases hp : parseChunks [c] sz with
        | error e =>
            have heq : internReadFile (DFile.mk [c] sz)
                = Except.error "3DS: chunk structure runs past the end of the file" := by
              rw [internReadFile]
              simp only [hid, if_pos, hp]
            exact Or.inl ⟨_, heq, by decide⟩
        | ok a =>
            have heq : internReadFile (DFile.mk [c] sz)
                = Except.ok (buildScene [c]) := by
              rw [internReadFile]
              simp only [hid, if_pos, hp]
            exact Or.inr ⟨buildScene [c], heq, scenePopulated_buildScene [c]⟩
      · have heq : internReadFile (DFile.mk [c] sz)
            = Except.error "3DS: first chunk is not the 3ds main chunk" := by
          rw [internReadFile]
          simp only [if_neg hid]
        exact Or.inl ⟨_, heq, by decide⟩
    · exact Or.inl ⟨_, rfl, by decide⟩
